import Mathlib

/-!
Verification of the Material Similarity Search engine (src/app.py).

The development shallowly embeds the algorithmic core of the application:

* the text normalizer clean_text (app.py lines 41-48),
* the similarity scorer similarity_score (lines 53-62), which dispatches to
  the rapidfuzz library functions fuzz.ratio, fuzz.token_sort_ratio,
  fuzz.token_set_ratio and the partial-ratio routine; those library
  functions are embedded here following rapidfuzz's reference (pure Python)
  implementations,
* the cached loader load_data (lines 68-90) with its pandas pipeline
  (column validation, CLEAN_NAME derivation, empty filter, drop_duplicates),
* the per-query pipeline (lines 161-176): query cleaning, the in-place
  SIMILARITY column assignment, threshold filter, descending sort and
  head truncation.

Strings are modelled as lists of characters (String.data).  Python floats
are modelled as exact rationals; every arithmetic step of the embedded
algorithms is a ratio of small integers, so no rounding behaviour is lost.
Regular-expression character classes are modelled on the ASCII whitespace
subset relevant to the data.
-/

/-- The whitespace class: models Python's regex class \s and str.strip /
str.split whitespace (ASCII subset: space, tab, newline, carriage return,
vertical tab, form feed). -/
def isWS (c : Char) : Bool :=
  c = ' ' || c = '\t' || c = '\n' || c = '\r' || c = '\x0b' || c = '\x0c'

/-- The six characters replaced by a space in clean_text's
re.sub(r"[–\x2d/,()]", " ", text): en dash, hyphen, slash, comma and the
two parentheses (app.py line 46). -/
def replacedChars : List Char := ['–', '-', '/', ',', '(', ')']

/-- str.upper(), character by character (ASCII letters; other characters
are left unchanged). -/
def upperChars (l : List Char) : List Char := l.map Char.toUpper

/-- re.sub(r"[–\x2d/,()]", " ", text): each of the six punctuation
characters becomes a single space; every other character is kept. -/
def replacePunct (l : List Char) : List Char :=
  l.map (fun c => if c ∈ replacedChars then ' ' else c)

/-- Worker for re.sub(r"\s+", " ", text): the flag records whether the
previous character was whitespace (in which case the current run has
already emitted its single space). -/
def collapseAux : Bool → List Char → List Char
  | _, [] => []
  | prev, c :: cs =>
    if isWS c then
      if prev then collapseAux true cs else ' ' :: collapseAux true cs
    else c :: collapseAux false cs

/-- re.sub(r"\s+", " ", text): every maximal run of whitespace becomes one
space. -/
def collapseWS (l : List Char) : List Char := collapseAux false l

/-- str.strip(): drop leading and trailing whitespace. -/
def stripWS (l : List Char) : List Char :=
  ((l.dropWhile isWS).reverse.dropWhile isWS).reverse

/-- The string-to-string body of clean_text (app.py lines 45-48):
upper-case, replace the six punctuation characters by spaces, collapse
whitespace runs, strip. -/
def cleanChars (l : List Char) : List Char :=
  stripWS (collapseWS (replacePunct (upperChars l)))

/-- clean_text on a genuine string. -/
def cleanStr (s : String) : String := String.mk (cleanChars s.data)

/-- clean_text (app.py lines 41-48).  pd.isna(text) (an absent
description) yields the empty string; otherwise the cleaning pipeline
runs on the string. -/
def clean_text : Option String → String
  | none => ""
  | some s => cleanStr s

/-- Decidable check for the regex ^[A-Z0-9 ]*$ from the specification's
character-set-closure property. -/
def matchesUpperAlnumSpace (s : String) : Bool :=
  s.data.all (fun c => ('A' ≤ c && c ≤ 'Z') || ('0' ≤ c && c ≤ '9') || c = ' ')

/-- An ASCII lower-case letter. -/
def isLowerAlpha (c : Char) : Bool := 'a' ≤ c && c ≤ 'z'

/-- Decidable check that a string contains at least one non-whitespace
character (equivalently: Python str.split() on it is non-empty). -/
def hasNonWS (s : String) : Bool := s.data.any (fun c => !isWS c)

/-!  ## The rapidfuzz scorer

rapidfuzz's fuzz.ratio is the normalized indel similarity:
100 * (1 - dist / (len a + len b)) where dist is the Levenshtein distance
restricted to insertions and deletions, i.e. len a + len b - 2 * lcs a b
with lcs the longest common subsequence length.  We embed lcs by its
textbook recurrence. -/

/-- Inner loop of the longest-common-subsequence recurrence: lcsAs is the
function lcs as for the tail as of the first string, a its head.  The
nesting keeps both recursions structural, so the kernel can evaluate. -/
def lcsGo (a : Char) (lcsAs : List Char → Nat) : List Char → Nat
  | [] => 0
  | b :: bs => if a = b then lcsAs bs + 1 else max (lcsGo a lcsAs bs) (lcsAs (b :: bs))

/-- Longest-common-subsequence length (the matched-character count behind
rapidfuzz's indel distance), by the textbook recurrence. -/
def lcs : List Char → List Char → Nat
  | [], _ => 0
  | a :: as, b => lcsGo a (lcs as) b

/-- rapidfuzz's normalized similarity 100 * (1 - dist/total) as an exact
rational, written as the single fraction 100 * (total - dist) / total so
that concrete scores evaluate; a zero total (two empty inputs) normalizes
to similarity 100, as in rapidfuzz. -/
def normSim (dist total : Nat) : ℚ :=
  if total = 0 then 100 else Rat.divInt (100 * ((total : Int) - (dist : Int))) (total : Int)

/-- fuzz.ratio on character lists: normalized indel similarity. -/
def ratioL (a b : List Char) : ℚ :=
  normSim (a.length + b.length - 2 * lcs a b) (a.length + b.length)

/-!  ## Tokenization (Python str.split and " ".join) -/

/-- Worker for str.split() with no separator: accumulates the current
token (reversed); whitespace runs separate tokens, leading/trailing
whitespace produces no empty tokens. -/
def splitWSAux : List Char → List Char → List (List Char)
  | [], acc => if acc = [] then [] else [acc.reverse]
  | c :: cs, acc =>
    if isWS c then
      if acc = [] then splitWSAux cs [] else acc.reverse :: splitWSAux cs []
    else splitWSAux cs (c :: acc)

/-- Python str.split(): split on whitespace runs, discarding empties. -/
def splitWS (l : List Char) : List (List Char) := splitWSAux l []

/-- Lexicographic comparison of strings by code point (Python string <=). -/
def lexLe : List Char → List Char → Bool
  | [], _ => true
  | _ :: _, [] => false
  | a :: as, b :: bs =>
    if a < b then true
    else if b < a then false
    else lexLe as bs

/-- Insert into a lexicographically sorted list (worker for sorted()). -/
def insertLex (t : List Char) : List (List Char) → List (List Char)
  | [] => [t]
  | u :: us => if lexLe t u then t :: u :: us else u :: insertLex t us

/-- Python sorted() on a list of strings (insertion sort; the order is the
total lexicographic order, so the result agrees with CPython's stable
sort: duplicates are equal strings). -/
def sortLex : List (List Char) → List (List Char)
  | [] => []
  | t :: ts => insertLex t (sortLex ts)

/-- " ".join(tokens): single spaces between tokens. -/
def joinSpace : List (List Char) → List Char
  | [] => []
  | [t] => t
  | t :: ts => t ++ ' ' :: joinSpace ts

/-- pandas drop_duplicates(keep="first") keyed by key, and Python set
construction (with key = id): keep a row only when its key has not been
seen before.  seen is the accumulator of keys already kept. -/
def dropDupAux {α β : Type} [DecidableEq β] (key : α → β) : List α → List β → List α
  | [], _ => []
  | x :: xs, seen =>
    if key x ∈ seen then dropDupAux key xs seen
    else x :: dropDupAux key xs (key x :: seen)

/-- Python set(s.split()) materialized canonically as a sorted duplicate-free
list (rapidfuzz only inspects membership, sorted order and joined length,
all of which are determined by the set). -/
def tokenSet (l : List Char) : List (List Char) :=
  sortLex (dropDupAux id (splitWS l) [])

/-- rapidfuzz fuzz.token_sort_ratio: ratio of the two strings rebuilt from
their sorted token lists. -/
def token_sort_ratioL (a b : List Char) : ℚ :=
  ratioL (joinSpace (sortLex (splitWS a))) (joinSpace (sortLex (splitWS b)))

/-- rapidfuzz fuzz.token_set_ratio (pure-Python reference implementation):
0 when either token set is empty; 100 when the sets nest with a nonempty
intersection; otherwise the maximum of the ratio of the joined sorted
differences and the two intersection-against-union comparisons, which
rapidfuzz computes directly from the joined lengths. -/
def token_set_ratioL (a b : List Char) : ℚ :=
  let ta := tokenSet a
  let tb := tokenSet b
  if ta = [] ∨ tb = [] then 0
  else
    let sect := ta.filter (fun t => decide (t ∈ tb))
    let dab := ta.filter (fun t => decide (t ∉ tb))
    let dba := tb.filter (fun t => decide (t ∉ ta))
    if sect ≠ [] ∧ (dab = [] ∨ dba = []) then 100
    else
      let abJ := joinSpace dab
      let baJ := joinSpace dba
      let sectLen := (joinSpace sect).length
      let bonus := if sectLen = 0 then 0 else 1
      max (ratioL abJ baJ)
        (max (normSim (bonus + abJ.length) (2 * sectLen + bonus + abJ.length))
          (normSim (bonus + baJ.length) (2 * sectLen + bonus + baJ.length)))

/-!  ## rapidfuzz fuzz.partial_ratio

The pure-Python reference implementation slides the shorter string (the
needle s1) over the longer one and takes the best fuzz.ratio among

* the proper prefixes s2[:i], 0 < i < len s1,
* the full windows s2[i:i+len s1], 0 <= i <= len s2 - len s1,
* the proper suffixes s2[i:], len s2 - len s1 < i < len s2,

skipping alignments whose boundary character does not occur in the needle
(those cannot improve the running maximum).  An empty needle scores 0;
two empty strings score 100.  partial_ratio_alignment picks the shorter
string as the needle; when the two lengths are EQUAL and the first pass
scores below 100 it runs a second pass with the roles swapped and keeps
the better score (the equal-length retry, rapidfuzz >= 2.0.3), so the
function is symmetric in its arguments. -/

/-- Boundary-character test of the reference implementation: the window is
only scored when the given character occurs in the needle. -/
def charHit (s1 : List Char) : Option Char → Bool
  | none => false
  | some c => c ∈ s1

/-- The candidate windows of the needle-sliding loops (prefixes, full
windows, suffixes), including the boundary-character skip. -/
def prWindows (s1 s2 : List Char) : List (List Char) :=
  let len1 := s1.length
  let len2 := s2.length
  ((List.range len1).filterMap fun i =>
    if i = 0 then none
    else if charHit s1 (s2.get? (i - 1)) then some (s2.take i) else none) ++
  ((List.range (len2 - len1 + 1)).filterMap fun i =>
    if charHit s1 (s2.get? (i + len1 - 1)) then some ((s2.drop i).take len1) else none) ++
  ((List.range len2).filterMap fun i =>
    if i ≤ len2 - len1 then none
    else if charHit s1 (s2.get? i) then some (s2.drop i) else none)

/-- The needle loop: best ratio of the needle against any candidate
window, starting from 0. -/
def shortNeedle (s1 s2 : List Char) : ℚ :=
  if s1 = [] then 0
  else (prWindows s1 s2).foldl (fun acc w => max acc (ratioL s1 w)) 0

/-- rapidfuzz fuzz.partial_ratio on character lists
(partial_ratio_alignment): the shorter string is the needle; on
equal-length inputs whose first pass scores below 100 the needle roles
are swapped for a second pass and the better score is kept. -/
def partialRatioL (a b : List Char) : ℚ :=
  if a = [] ∧ b = [] then 100
  else if a.length ≤ b.length then
    if a.length = b.length ∧ shortNeedle a b ≠ 100 then
      max (shortNeedle a b) (shortNeedle b a)
    else shortNeedle a b
  else shortNeedle b a

/-- similarity_score (app.py lines 53-62): dispatch on the method string;
every unrecognized method (including the app's "simple" choice) falls
through to fuzz.ratio. -/
def similarity_score (a b : String) (method : String) : ℚ :=
  if method = "token_set" then token_set_ratioL a.data b.data
  else if method = "token_sort" then token_sort_ratioL a.data b.data
  else if method = "partial" then partialRatioL a.data b.data
  else ratioL a.data b.data

/-!  ## The catalog DataFrame and the loader (app.py lines 68-90)

A row of the master DataFrame carries the Material code, the Material
Description (absent for NaN cells), the derived CLEAN_NAME column and the
SIMILARITY column; the latter is absent (none) until a query assigns it,
which models a DataFrame that does not yet have the column (pandas
comparisons against a missing/NaN similarity are false). -/

/-- A raw record supplied by pd.read_excel: Material code and the
possibly-missing Material Description. -/
structure RawRow where
  material : String
  desc : Option String
deriving DecidableEq

/-- A row of the in-memory master DataFrame. -/
structure Row where
  material : String
  desc : Option String
  cleanName : String
  similarity : Option ℚ
deriving DecidableEq

/-- The outcome of pd.read_excel as seen by load_data's try block:
the file may be missing (FileNotFoundError), reading may raise some other
exception, or a table is produced whose header may or may not contain the
two required columns. -/
inductive ReadResult where
  | fileNotFound : ReadResult
  | readError : ReadResult
  | table : Bool → Bool → List RawRow → ReadResult
deriving DecidableEq

/-- df["CLEAN_NAME"] = df[MATERIAL_NAME_COL].apply(clean_text)
(app.py line 79), on one row. -/
def mkRow (raw : RawRow) : Row :=
  { material := raw.material, desc := raw.desc,
    cleanName := clean_text raw.desc, similarity := none }

/-- pandas drop_duplicates(subset=[MATERIAL_CODE_COL]) (keep="first"),
from the generic first-seen-wins worker. -/
def dropDuplicatesBy (key : Row → String) (rows : List Row) : List Row :=
  dropDupAux key rows []

/-- The data-preparation pipeline of load_data (app.py lines 79-82):
derive CLEAN_NAME, keep rows with a non-empty CLEAN_NAME, then
drop_duplicates on the Material code keeping the first occurrence. -/
def buildRows (rows : List RawRow) : List Row :=
  dropDuplicatesBy (fun r => r.material)
    ((rows.map mkRow).filter (fun r => decide (r.cleanName ≠ "")))

/-- load_data (app.py lines 68-90).  none models the function returning
None after st.error: on FileNotFoundError, on any other read exception,
and when a required column is missing.  Otherwise the prepared DataFrame
is returned — the code has no emptiness check, so an empty table is
returned as an empty snapshot, not an error. -/
def load_data : ReadResult → Option (List Row)
  | ReadResult.fileNotFound => none
  | ReadResult.readError => none
  | ReadResult.table hasCode hasName rows =>
    if hasCode && hasName then some (buildRows rows) else none

/-!  ## The query pipeline (app.py lines 161-176) -/

/-- The sidebar and search-bar inputs of one query. -/
structure QuerySpec where
  searchTerm : String
  method : String
  minScore : ℚ
  maxResults : Nat
  caseSensitive : Bool
deriving DecidableEq

/-- clean_query = clean_text(search_term) if not case_sensitive else
search_term.strip() (app.py line 163). -/
def cleanQuery (q : QuerySpec) : String :=
  if q.caseSensitive then String.mk (stripWS q.searchTerm.data) else cleanStr q.searchTerm

/-- df_master["SIMILARITY"] = df_master["CLEAN_NAME"].apply(lambda x:
similarity_score(clean_query, x, match_method)) (app.py lines 167-169):
the snapshot is updated in place, every row receiving a SIMILARITY value. -/
def searchStep (df : List Row) (q : QuerySpec) : List Row :=
  df.map (fun r =>
    { r with similarity := some (similarity_score (cleanQuery q) r.cleanName q.method) })

/-- The row-level test of df_master["SIMILARITY"] >= min_similarity; a
missing similarity (pandas NaN) compares false. -/
def simPasses (r : Row) (minScore : ℚ) : Bool :=
  match r.similarity with
  | some s => minScore ≤ s
  | none => false

/-- df_master[df_master["SIMILARITY"] >= min_similarity] (app.py line 173). -/
def filterStep (rows : List Row) (minScore : ℚ) : List Row :=
  rows.filter (fun r => simPasses r minScore)

/-- The SIMILARITY value used as the sort key (the sort runs after
searchStep, where every row's similarity is present). -/
def simVal (r : Row) : ℚ := r.similarity.getD 0

/-- Decidable check that a row sequence is ordered by non-increasing
SIMILARITY. -/
def sortedDescSim : List Row → Bool
  | [] => true
  | [_] => true
  | r1 :: r2 :: rs => (simVal r2 ≤ simVal r1) && sortedDescSim (r2 :: rs)

/-- .sort_values("SIMILARITY", ascending=False) (app.py line 174) with the
default kind="quicksort".  pandas guarantees that the result is a
permutation of the rows ordered by non-increasing key, but quicksort is
NOT a stable sort (only kind="mergesort"/"stable" are, per the pandas
documentation), so the relative order of equal keys is unspecified: the
sort is modelled as the relation admitting every ordered permutation. -/
def sortValuesDesc (inp out : List Row) : Prop :=
  List.Perm inp out ∧ sortedDescSim out = true

/-- The full result pipeline (app.py lines 172-176): score every row in
place, filter by the threshold, sort descending by SIMILARITY, truncate
with .head(max_results). -/
def resultsSpec (df : List Row) (q : QuerySpec) (out : List Row) : Prop :=
  ∃ mid, sortValuesDesc (filterStep (searchStep df q) q.minScore) mid ∧
    out = mid.take q.maxResults

/-- Bool version of List.Pairwise for concrete checking. -/
def pairwiseB {α : Type} (p : α → α → Bool) : List α → Bool
  | [] => true
  | x :: xs => xs.all (p x) && pairwiseB p xs

/-- Index of the first occurrence of a row. -/
def idxOfRow (r : Row) : List Row → Nat
  | [] => 0
  | x :: xs => if x = r then 0 else idxOfRow r xs + 1

/-- The stable-tie-break property claimed by the specification: whenever
two result entries carry equal scores, they occur in the same relative
order as in the pre-sort candidate sequence (which lists the candidates
in original catalog order). -/
def tieOrderPreserved (inp out : List Row) : Bool :=
  pairwiseB (fun r1 r2 => (simVal r1 != simVal r2) || decide (idxOfRow r1 inp < idxOfRow r2 inp)) out

/-!  ## Helper: one concrete ordered permutation always exists

Insertion sort by non-increasing SIMILARITY, used only to witness that the
sort relation is total (the code never fails to produce a sorted result). -/

/-- Insert a row into a non-increasingly sorted list. -/
def insertDesc (r : Row) : List Row → List Row
  | [] => [r]
  | x :: xs => if simVal x ≤ simVal r then r :: x :: xs else x :: insertDesc r xs

/-- Insertion sort by non-increasing SIMILARITY. -/
def sortDescList : List Row → List Row
  | [] => []
  | r :: rs => insertDesc r (sortDescList rs)

/-- The usual unfolding of the recurrence. -/
theorem lcs_cons_cons (a b : Char) (as bs : List Char) :
    lcs (a :: as) (b :: bs) =
      if a = b then lcs as bs + 1 else max (lcs (a :: as) bs) (lcs as (b :: bs)) := rfl

/-- lcs of an empty second string. -/
theorem lcs_nil_right : ∀ a : List Char, lcs a [] = 0 := by
  intro a
  cases a <;> rfl

-- Basic lcs facts ------------------------------------------------------

theorem lcs_le_left_fuel :
    ∀ n (a b : List Char), a.length + b.length ≤ n → lcs a b ≤ a.length := by
  intro n
  induction n with
  | zero =>
    intro a b h
    match a, b with
    | [], _ => simp [lcs]
    | _ :: _, [] => simp at h
  | succ n ih =>
    intro a b h
    match a, b with
    | [], _ => simp [lcs]
    | _ :: _, [] => simp [lcs_nil_right]
    | a :: as, b :: bs =>
      rw [lcs_cons_cons]
      split
      · have := ih as bs (by simp only [List.length_cons] at h; omega)
        simp only [List.length_cons]
        omega
      · have h1 := ih (a :: as) bs (by simp only [List.length_cons] at h ⊢; omega)
        have h2 := ih as (b :: bs) (by simp only [List.length_cons] at h ⊢; omega)
        simp only [List.length_cons] at *
        omega

theorem lcs_le_left (a b : List Char) : lcs a b ≤ a.length :=
  lcs_le_left_fuel (a.length + b.length) a b le_rfl

theorem lcs_comm_fuel :
    ∀ n (a b : List Char), a.length + b.length ≤ n → lcs a b = lcs b a := by
  intro n
  induction n with
  | zero =>
    intro a b h
    match a, b with
    | [], [] => rfl
    | [], _ :: _ => simp at h
    | _ :: _, _ => simp at h
  | succ n ih =>
    intro a b h
    match a, b with
    | [], [] => rfl
    | [], _ :: _ => simp [lcs, lcsGo]
    | _ :: _, [] => simp [lcs, lcsGo]
    | a :: as, b :: bs =>
      rw [lcs_cons_cons, lcs_cons_cons]
      by_cases hab : a = b
      · subst hab
        rw [if_pos rfl, if_pos rfl]
        have := ih as bs (by simp only [List.length_cons] at h; omega)
        omega
      · rw [if_neg hab, if_neg (fun h => hab h.symm)]
        have h1 := ih (a :: as) bs (by simp only [List.length_cons] at h ⊢; omega)
        have h2 := ih as (b :: bs) (by simp only [List.length_cons] at h ⊢; omega)
        omega

theorem lcs_comm (a b : List Char) : lcs a b = lcs b a :=
  lcs_comm_fuel (a.length + b.length) a b le_rfl

theorem lcs_le_right (a b : List Char) : lcs a b ≤ b.length := by
  rw [lcs_comm]
  exact lcs_le_left b a

theorem lcs_self : ∀ a : List Char, lcs a a = a.length := by
  intro a
  induction a with
  | nil => simp [lcs]
  | cons x xs ih => simp [lcs_cons_cons, ih]

-- normSim and ratio facts ----------------------------------------------

theorem normSim_nonneg (dist total : Nat) (h : dist ≤ total) : 0 ≤ normSim dist total := by
  unfold normSim
  split
  · norm_num
  · rename_i ht
    rw [Rat.divInt_eq_div]
    apply div_nonneg
    · have : (dist : Int) ≤ (total : Int) := by exact_mod_cast h
      have h100 : (0 : Int) ≤ 100 * ((total : Int) - (dist : Int)) := by omega
      exact_mod_cast h100
    · positivity

theorem normSim_le_100 (dist total : Nat) : normSim dist total ≤ 100 := by
  unfold normSim
  split
  · norm_num
  · rename_i ht
    rw [Rat.divInt_eq_div]
    have htpos : (0 : ℚ) < ((total : Int) : ℚ) := by
      have := Nat.pos_of_ne_zero ht
      exact_mod_cast this
    rw [div_le_iff₀ htpos]
    have hd0 : (0 : Int) ≤ (dist : Int) := by positivity
    have hint : 100 * ((total : Int) - (dist : Int)) ≤ 100 * (total : Int) := by omega
    calc ((100 * ((total : Int) - (dist : Int)) : Int) : ℚ)
        ≤ ((100 * (total : Int) : Int) : ℚ) := by exact_mod_cast hint
      _ = 100 * ((total : Int) : ℚ) := by push_cast; ring

theorem ratioL_nonneg (a b : List Char) : 0 ≤ ratioL a b := by
  apply normSim_nonneg
  omega

theorem ratioL_le_100 (a b : List Char) : ratioL a b ≤ 100 := normSim_le_100 _ _

theorem normSim_zero_dist (total : Nat) : normSim 0 total = 100 := by
  unfold normSim
  split
  · rfl
  · rename_i ht
    rw [Rat.divInt_eq_div]
    have htne : ((total : Int) : ℚ) ≠ 0 := by
      have := Nat.pos_of_ne_zero ht
      simp
      omega
    push_cast
    field_simp

theorem ratioL_self (a : List Char) : ratioL a a = 100 := by
  unfold ratioL
  rw [lcs_self]
  have : a.length + a.length - 2 * a.length = 0 := by omega
  rw [this, normSim_zero_dist]

theorem ratioL_comm (a b : List Char) : ratioL a b = ratioL b a := by
  unfold ratioL
  rw [lcs_comm, Nat.add_comm]

theorem ratioL_nil_left (b : List Char) (hb : b ≠ []) : ratioL [] b = 0 := by
  unfold ratioL
  have hlen : b.length ≠ 0 := by
    intro h
    exact hb (List.length_eq_zero.mp h)
  simp only [lcs, List.length_nil, Nat.zero_add, Nat.mul_zero, Nat.sub_zero]
  unfold normSim
  rw [if_neg hlen]
  have : (b.length : Int) - (b.length : Int) = 0 := by omega
  rw [this]
  simp

theorem insertDesc_perm (r : Row) (l : List Row) :
    List.Perm (insertDesc r l) (r :: l) := by
  induction l with
  | nil => simp [insertDesc]
  | cons x xs ih =>
    rw [insertDesc]
    split
    · exact List.Perm.refl _
    · exact (List.Perm.cons x ih).trans (List.Perm.swap r x xs)

theorem sortedDescSim_cons (r : Row) (l : List Row)
    (hl : sortedDescSim l = true) (hr : ∀ x ∈ l, simVal x ≤ simVal r) :
    sortedDescSim (r :: l) = true := by
  cases l with
  | nil => rfl
  | cons x xs =>
    rw [sortedDescSim]
    simp only [Bool.and_eq_true]
    exact ⟨by simpa using hr x (by simp), hl⟩

theorem sortedDescSim_tail (r : Row) (l : List Row)
    (h : sortedDescSim (r :: l) = true) : sortedDescSim l = true := by
  cases l with
  | nil => rfl
  | cons x xs =>
    rw [sortedDescSim] at h
    exact (Bool.and_eq_true _ _ |>.mp h).2

theorem sortedDescSim_head (r x : Row) (l : List Row)
    (h : sortedDescSim (r :: l) = true) (hx : x ∈ l) : simVal x ≤ simVal r := by
  induction l generalizing r with
  | nil => cases hx
  | cons y ys ih =>
    rw [sortedDescSim] at h
    have hyr := (Bool.and_eq_true _ _ |>.mp h).1
    have hys := (Bool.and_eq_true _ _ |>.mp h).2
    rcases List.mem_cons.mp hx with rfl | hx2
    · exact of_decide_eq_true hyr
    · exact le_trans (ih y hys hx2) (of_decide_eq_true hyr)

theorem insertDesc_sorted (r : Row) (l : List Row)
    (h : sortedDescSim l = true) : sortedDescSim (insertDesc r l) = true := by
  induction l with
  | nil => rfl
  | cons x xs ih =>
    rw [insertDesc]
    split
    · rename_i hxr
      apply sortedDescSim_cons
      · exact h
      · intro y hy
        rcases List.mem_cons.mp hy with rfl | hy2
        · exact hxr
        · exact le_trans (sortedDescSim_head x y xs h hy2) hxr
    · rename_i hxr
      have hxs := sortedDescSim_tail x xs h
      apply sortedDescSim_cons
      · exact ih hxs
      · intro y hy
        have hy3 := (insertDesc_perm r xs).mem_iff.mp hy
        rcases List.mem_cons.mp hy3 with rfl | hy4
        · exact le_of_not_le hxr
        · exact sortedDescSim_head x y xs h hy4

theorem sortDescList_perm (l : List Row) : List.Perm l (sortDescList l) := by
  induction l with
  | nil => simp [sortDescList]
  | cons r rs ih =>
    rw [sortDescList]
    exact (List.Perm.cons r ih).trans (insertDesc_perm r (sortDescList rs)).symm

theorem sortDescList_sorted (l : List Row) : sortedDescSim (sortDescList l) = true := by
  induction l with
  | nil => rfl
  | cons r rs ih => exact insertDesc_sorted r (sortDescList rs) ih

theorem sortValuesDesc_total (l : List Row) : ∃ out, sortValuesDesc l out :=
  ⟨sortDescList l, sortDescList_perm l, sortDescList_sorted l⟩

theorem sortedDescSim_take (l : List Row) (n : Nat)
    (h : sortedDescSim l = true) : sortedDescSim (l.take n) = true := by
  induction l generalizing n with
  | nil => cases n <;> simp [sortedDescSim]
  | cons x xs ih =>
    cases n with
    | zero => rfl
    | succ n =>
      rw [List.take_succ_cons]
      apply sortedDescSim_cons
      · exact ih n (sortedDescSim_tail x xs h)
      · intro y hy
        exact sortedDescSim_head x y xs h (List.take_subset n xs hy)

/-!  ## Facts about the first-seen-wins deduplication -/

theorem dropDupAux_subset {α β : Type} [DecidableEq β] (key : α → β) :
    ∀ (l : List α) (seen : List β) (x : α), x ∈ dropDupAux key l seen → x ∈ l := by
  intro l
  induction l with
  | nil => intro seen x h; cases h
  | cons y ys ih =>
    intro seen x h
    rw [dropDupAux] at h
    split at h
    · exact List.mem_cons_of_mem y (ih seen x h)
    · rcases List.mem_cons.mp h with rfl | h2
      · exact List.mem_cons_self x ys
      · exact List.mem_cons_of_mem y (ih _ x h2)

theorem dropDupAux_key_not_seen {α β : Type} [DecidableEq β] (key : α → β) :
    ∀ (l : List α) (seen : List β) (x : α), x ∈ dropDupAux key l seen → key x ∉ seen := by
  intro l
  induction l with
  | nil => intro seen x h; cases h
  | cons y ys ih =>
    intro seen x h
    rw [dropDupAux] at h
    split at h
    · exact ih seen x h
    · rcases List.mem_cons.mp h with rfl | h2
      · assumption
      · intro hseen
        exact ih _ x h2 (List.mem_cons_of_mem _ hseen)

theorem dropDupAux_keys_nodup {α β : Type} [DecidableEq β] (key : α → β) :
    ∀ (l : List α) (seen : List β), ((dropDupAux key l seen).map key).Nodup := by
  intro l
  induction l with
  | nil => intro seen; simp [dropDupAux]
  | cons y ys ih =>
    intro seen
    rw [dropDupAux]
    split
    · exact ih seen
    · rw [List.map_cons, List.nodup_cons]
      constructor
      · intro hmem
        rcases List.mem_map.mp hmem with ⟨x, hx, hkey⟩
        exact dropDupAux_key_not_seen key ys _ x hx (hkey ▸ List.mem_cons_self _ _)
      · exact ih _

theorem dropDupAux_first {α β : Type} [DecidableEq β] (key : α → β) :
    ∀ (l : List α) (seen : List β) (x : α), x ∈ dropDupAux key l seen →
      l.find? (fun y => decide (key y = key x)) = some x := by
  intro l
  induction l with
  | nil => intro seen x h; cases h
  | cons y ys ih =>
    intro seen x h
    rw [dropDupAux] at h
    split at h
    · rename_i hseen
      have hx := ih seen x h
      have hne : key y ≠ key x := by
        intro he
        exact dropDupAux_key_not_seen key ys seen x h (he ▸ hseen)
      rw [List.find?_cons_of_neg _ (by simpa using hne)]
      exact hx
    · rename_i hseen
      rcases List.mem_cons.mp h with rfl | h2
      · rw [List.find?_cons_of_pos _ (by simp)]
      · have hx := ih _ x h2
        have hne : key y ≠ key x := by
          intro he
          exact dropDupAux_key_not_seen key ys _ x h2 (he ▸ List.mem_cons_self _ _)
        rw [List.find?_cons_of_neg _ (by simpa using hne)]
        exact hx

theorem dropDupAux_length {α β : Type} [DecidableEq β] (key : α → β) :
    ∀ (l : List α) (seen : List β),
      (dropDupAux key l seen).length = ((l.map key).toFinset \ seen.toFinset).card := by
  intro l
  induction l with
  | nil => intro seen; simp [dropDupAux]
  | cons y ys ih =>
    intro seen
    rw [dropDupAux]
    split
    · rename_i hseen
      rw [ih seen, List.map_cons, List.toFinset_cons]
      congr 1
      rw [Finset.insert_sdiff_of_mem _ (List.mem_toFinset.mpr hseen)]
    · rename_i hseen
      rw [List.length_cons, ih (key y :: seen), List.map_cons, List.toFinset_cons,
        List.toFinset_cons]
      have hnotseen : key y ∉ seen.toFinset := fun hc => hseen (List.mem_toFinset.mp hc)
      rw [Finset.sdiff_insert]
      have hid : insert (key y) (List.map key ys).toFinset \ seen.toFinset
          = insert (key y) (((List.map key ys).toFinset \ seen.toFinset).erase (key y)) := by
        ext z
        by_cases hz : z = key y
        · subst hz
          simp [hnotseen]
        · simp [hz]
      rw [hid, Finset.card_insert_of_not_mem (Finset.not_mem_erase _ _)]

/-!  ## Claim C2: does a query mutate the snapshot? -/

/-- Claim C2 counterexample: evaluating a query does NOT leave the
snapshot unchanged.  On a one-row snapshot without a SIMILARITY column,
the assignment df_master["SIMILARITY"] = ... (app.py line 167) produces a
different snapshot (the column is now present). -/
theorem claim_C2_counterexample :
    searchStep [⟨"M1", some "BOLT", "BOLT", none⟩]
        ⟨"BOLT", "token_set", 50, 100, false⟩ ≠
      [⟨"M1", some "BOLT", "BOLT", none⟩] := by
  decide

/-- Claim C2 (amended): evaluating a query mutates the snapshot only in
the SIMILARITY column; after erasing that column the snapshot is exactly
what it was — every record's code, description and normalized name, and
the row count and order, are unchanged. -/
theorem claim_C2_amended (df : List Row) (q : QuerySpec) :
    (searchStep df q).map (fun r => { r with similarity := none }) =
      df.map (fun r => { r with similarity := none }) := by
  induction df with
  | nil => rfl
  | cons r rs ih =>
    simp only [searchStep, List.map_cons] at ih ⊢
    rw [ih]

/-!  ## Claim C5: is an empty dataset a load error? -/

/-- Claim C5 counterexample: loading a readable source with both required
columns and zero rows does not fail; load_data publishes the empty
snapshot (there is no EmptyDataset failure in the code). -/
theorem claim_C5_counterexample :
    load_data (ReadResult.table true true []) = some [] := by
  decide

/-- Claim C5 (amended): load_data fails (publishes no snapshot) exactly
when the source is unreadable (missing file or read exception) or a
required column is missing; an empty dataset after load is NOT a failure
— the prepared (empty) snapshot is published. -/
theorem claim_C5_amended (input : ReadResult) :
    (load_data input = none ↔
      (input = ReadResult.fileNotFound ∨ input = ReadResult.readError ∨
        ∃ hasCode hasName rows, input = ReadResult.table hasCode hasName rows ∧
          (hasCode && hasName) = false)) ∧
    (∀ rows, load_data (ReadResult.table true true rows) = some (buildRows rows)) := by
  constructor
  · cases input with
    | fileNotFound => simp [load_data]
    | readError => simp [load_data]
    | table hasCode hasName rows =>
      simp only [load_data]
      cases hb : hasCode && hasName with
      | true =>
        simp only [if_pos rfl]
        constructor
        · intro h
          cases h
        · rintro (h | h | ⟨hc, hn, rs, heq, hfalse⟩)
          · cases h
          · cases h
          · cases heq
            rw [hb] at hfalse
            cases hfalse
      | false =>
        rw [if_neg (by decide)]
        constructor
        · intro _
          exact Or.inr (Or.inr ⟨hasCode, hasName, rows, rfl, hb⟩)
        · intro _
          rfl
  · intro rows
    rfl

/-!  ## Claim C10: unrecognized methods fall back to fuzz.ratio -/

/-- Claim C10: for every method name outside the recognized set
{token_set, token_sort, partial}, similarity_score silently computes the
same value as with the app's "simple" choice (both hit the final else
branch, fuzz.ratio); no error is raised. -/
theorem claim_C10 (a b m : String)
    (hm : m ∉ (["token_set", "token_sort", "partial"] : List String)) :
    similarity_score a b m = similarity_score a b "simple" := by
  have h1 : m ≠ "token_set" := fun e => hm (by rw [e]; exact List.mem_cons_self _ _)
  have h2 : m ≠ "token_sort" := fun e => hm (by rw [e]; simp)
  have h3 : m ≠ "partial" := fun e => hm (by rw [e]; simp)
  unfold similarity_score
  rw [if_neg h1, if_neg h2, if_neg h3,
    if_neg (by decide : ¬("simple" : String) = "token_set"),
    if_neg (by decide : ¬("simple" : String) = "token_sort"),
    if_neg (by decide : ¬("simple" : String) = "partial")]

/-- Claim C10 witness at the concrete unknown method "fuzzy". -/
theorem claim_C10_witness :
    ("fuzzy" : String) ∉ (["token_set", "token_sort", "partial"] : List String) ∧
      similarity_score "AB" "AC" "fuzzy" = similarity_score "AB" "AC" "simple" :=
  ⟨by decide, claim_C10 "AB" "AC" "fuzzy" (by decide)⟩

/-!  ## Claim C6: ranker filter / truncation / empty-result behaviour -/

/-- Claim C6: the query pipeline always produces a result (never an
error); the threshold filter keeps exactly the scored rows with
SIMILARITY >= min_similarity (inclusive); the returned sequence has at
most max_results entries, every returned entry passes the threshold, and
when no scored row passes the result is empty. -/
theorem claim_C6 (df : List Row) (q : QuerySpec) :
    (∃ out, resultsSpec df q out) ∧
    (∀ out, resultsSpec df q out →
      (∀ r, r ∈ filterStep (searchStep df q) q.minScore ↔
          r ∈ searchStep df q ∧ simPasses r q.minScore = true) ∧
      out.length ≤ q.maxResults ∧
      (∀ r ∈ out, simPasses r q.minScore = true) ∧
      ((∀ r ∈ searchStep df q, simPasses r q.minScore = false) → out = [])) := by
  constructor
  · exact ⟨(sortDescList (filterStep (searchStep df q) q.minScore)).take q.maxResults,
      sortDescList _, ⟨sortDescList_perm _, sortDescList_sorted _⟩, rfl⟩
  · rintro out ⟨mid, ⟨hperm, hsort⟩, rfl⟩
    refine ⟨?_, ?_, ?_, ?_⟩
    · intro r
      exact List.mem_filter
    · exact List.length_take_le _ _
    · intro r hr
      have hr2 : r ∈ mid := List.take_subset _ _ hr
      have hr3 : r ∈ filterStep (searchStep df q) q.minScore := hperm.mem_iff.mpr hr2
      exact (List.mem_filter.mp hr3).2
    · intro hall
      have hnil : filterStep (searchStep df q) q.minScore = [] := by
        apply List.filter_eq_nil_iff.mpr
        intro r hr
        simp [hall r hr]
      rw [hnil] at hperm
      rw [List.Perm.eq_nil hperm.symm]
      simp

/-- Claim C6 witness: a concrete one-row catalog and query, with the
sorted middle list given explicitly. -/
theorem claim_C6_witness :
    resultsSpec [⟨"M1", some "B", "B", none⟩] ⟨"B", "simple", 50, 10, false⟩
        [⟨"M1", some "B", "B", some 100⟩] ∧
      ([(⟨"M1", some "B", "B", some 100⟩ : Row)]).length ≤ 10 := by
  have hspec : resultsSpec [⟨"M1", some "B", "B", none⟩] ⟨"B", "simple", 50, 10, false⟩
      [⟨"M1", some "B", "B", some 100⟩] :=
    ⟨[⟨"M1", some "B", "B", some 100⟩], ⟨by decide, by decide⟩, by decide⟩
  exact ⟨hspec, ((claim_C6 [⟨"M1", some "B", "B", none⟩]
    ⟨"B", "simple", 50, 10, false⟩).2 _ hspec).2.1⟩

/-!  ## Claim C1: sort order and the stable-tie-break claim -/

/-- Claim C1 counterexample: the sort is the default (unstable) quicksort,
so the code is allowed to return equal-score rows in reversed catalog
order.  Concretely, for a two-row catalog whose rows both score 100, the
reversed output satisfies the code's sort contract while violating the
claimed stable tie-break. -/
theorem claim_C1_counterexample :
    resultsSpec
        [⟨"M1", some "B", "B", none⟩, ⟨"M2", some "B", "B", none⟩]
        ⟨"B", "token_set", 0, 50, false⟩
        [⟨"M2", some "B", "B", some 100⟩, ⟨"M1", some "B", "B", some 100⟩] ∧
      tieOrderPreserved
        (filterStep
          (searchStep [⟨"M1", some "B", "B", none⟩, ⟨"M2", some "B", "B", none⟩]
            ⟨"B", "token_set", 0, 50, false⟩) 0)
        [⟨"M2", some "B", "B", some 100⟩, ⟨"M1", some "B", "B", some 100⟩] = false := by
  constructor
  · exact ⟨[⟨"M2", some "B", "B", some 100⟩, ⟨"M1", some "B", "B", some 100⟩],
      ⟨by decide, by decide⟩, by decide⟩
  · decide

/-- Claim C1 (amended): the ranked result is sorted by score in
non-increasing order; but the relative order of equal-score entries is
NOT guaranteed — the default pandas quicksort is unstable, so ties need
not retain catalog order. -/
theorem claim_C1_amended (df : List Row) (q : QuerySpec) (out : List Row)
    (h : resultsSpec df q out) : sortedDescSim out = true := by
  obtain ⟨mid, ⟨hperm, hsort⟩, rfl⟩ := h
  exact sortedDescSim_take _ _ hsort

/-- Claim C1 amended witness at a concrete two-row catalog (the lower
score 200/3 is fuzz.ratio("BB","B")). -/
theorem claim_C1_amended_witness :
    sortedDescSim
      [(⟨"M2", some "BB", "BB", some 100⟩ : Row),
        ⟨"M1", some "B", "B", some (Rat.divInt 200 3)⟩] = true :=
  claim_C1_amended
    [⟨"M1", some "B", "B", none⟩, ⟨"M2", some "BB", "BB", none⟩]
    ⟨"BB", "simple", 50, 10, false⟩
    [⟨"M2", some "BB", "BB", some 100⟩, ⟨"M1", some "B", "B", some (Rat.divInt 200 3)⟩]
    ⟨[⟨"M2", some "BB", "BB", some 100⟩, ⟨"M1", some "B", "B", some (Rat.divInt 200 3)⟩],
      ⟨by decide, by decide⟩, by decide⟩

/-!  ## Tokenization facts -/

theorem splitWSAux_ne_nil_of_acc :
    ∀ (l : List Char) (acc : List Char), acc ≠ [] → splitWSAux l acc ≠ [] := by
  intro l
  induction l with
  | nil =>
    intro acc h
    rw [splitWSAux, if_neg h]
    simp
  | cons c cs ih =>
    intro acc h
    rw [splitWSAux]
    split
    · simp
    · exact ih (c :: acc) (by simp)

theorem splitWSAux_tokens_ne_nil :
    ∀ (l : List Char) (acc t : List Char), t ∈ splitWSAux l acc → t ≠ [] := by
  intro l
  induction l with
  | nil =>
    intro acc t ht
    rw [splitWSAux] at ht
    split at ht
    · cases ht
    · rename_i hacc
      rw [List.mem_singleton] at ht
      subst ht
      simpa using hacc
  | cons c cs ih =>
    intro acc t ht
    rw [splitWSAux] at ht
    split at ht
    · split at ht
      · exact ih [] t ht
      · rename_i hacc
        rcases List.mem_cons.mp ht with rfl | ht2
        · simpa using hacc
        · exact ih [] t ht2
    · exact ih (c :: acc) t ht

theorem splitWSAux_ne_nil_of_nonWS :
    ∀ (l : List Char) (acc : List Char), (∃ c ∈ l, isWS c = false) → splitWSAux l acc ≠ [] := by
  intro l
  induction l with
  | nil =>
    intro acc h
    obtain ⟨c, hc, _⟩ := h
    cases hc
  | cons c cs ih =>
    intro acc h
    rw [splitWSAux]
    split
    · rename_i hws
      have h2 : ∃ x ∈ cs, isWS x = false := by
        obtain ⟨x, hx, hxw⟩ := h
        rcases List.mem_cons.mp hx with rfl | hx2
        · rw [hws] at hxw
          cases hxw
        · exact ⟨x, hx2, hxw⟩
      split
      · exact ih [] h2
      · simp
    · exact splitWSAux_ne_nil_of_acc cs (c :: acc) (by simp)

theorem splitWS_tokens_ne_nil (l t : List Char) (ht : t ∈ splitWS l) : t ≠ [] :=
  splitWSAux_tokens_ne_nil l [] t ht

theorem splitWS_ne_nil_of_nonWS (l : List Char) (h : ∃ c ∈ l, isWS c = false) :
    splitWS l ≠ [] :=
  splitWSAux_ne_nil_of_nonWS l [] h

theorem insertLex_perm (t : List Char) (l : List (List Char)) :
    List.Perm (insertLex t l) (t :: l) := by
  induction l with
  | nil => simp [insertLex]
  | cons u us ih =>
    rw [insertLex]
    split
    · exact List.Perm.refl _
    · exact (List.Perm.cons u ih).trans (List.Perm.swap t u us)

theorem sortLex_perm (l : List (List Char)) : List.Perm (sortLex l) l := by
  induction l with
  | nil => simp [sortLex]
  | cons t ts ih =>
    rw [sortLex]
    exact (insertLex_perm t (sortLex ts)).trans (List.Perm.cons t ih)

theorem dropDupAux_id_mem {α : Type} [DecidableEq α] :
    ∀ (l seen : List α) (x : α), x ∈ dropDupAux id l seen ↔ (x ∈ l ∧ x ∉ seen) := by
  intro l
  induction l with
  | nil =>
    intro seen x
    simp [dropDupAux]
  | cons y ys ih =>
    intro seen x
    rw [dropDupAux]
    split
    · rename_i hseen
      rw [ih seen x]
      constructor
      · rintro ⟨h1, h2⟩
        exact ⟨List.mem_cons_of_mem y h1, h2⟩
      · rintro ⟨h1, h2⟩
        rcases List.mem_cons.mp h1 with rfl | h3
        · exact absurd (by simpa using hseen) h2
        · exact ⟨h3, h2⟩
    · rename_i hseen
      simp only [id_eq] at hseen
      simp only [id_eq, List.mem_cons, ih (y :: seen) x]
      constructor
      · rintro (rfl | ⟨h1, h2⟩)
        · exact ⟨Or.inl rfl, hseen⟩
        · exact ⟨Or.inr h1, fun hc => h2 (Or.inr hc)⟩
      · rintro ⟨h1 | h1, h2⟩
        · exact Or.inl h1
        · by_cases hxy : x = y
          · exact Or.inl hxy
          · refine Or.inr ⟨h1, ?_⟩
            rintro (rfl | hc)
            · exact hxy rfl
            · exact h2 hc

theorem tokenSet_mem (l : List Char) (t : List Char) :
    t ∈ tokenSet l ↔ t ∈ splitWS l := by
  unfold tokenSet
  rw [(sortLex_perm _).mem_iff, dropDupAux_id_mem]
  simp

theorem tokenSet_nodup (l : List Char) : (tokenSet l).Nodup := by
  unfold tokenSet
  rw [List.Perm.nodup_iff (sortLex_perm _)]
  have := dropDupAux_keys_nodup id (splitWS l) []
  simpa using this

theorem tokenSet_ne_nil (l : List Char) (h : splitWS l ≠ []) : tokenSet l ≠ [] := by
  obtain ⟨t, ts, ht⟩ := List.exists_cons_of_ne_nil h
  apply List.ne_nil_of_mem (a := t)
  rw [tokenSet_mem, ht]
  exact List.mem_cons_self _ _

theorem tokenSet_tokens_ne_nil (l t : List Char) (ht : t ∈ tokenSet l) : t ≠ [] :=
  splitWS_tokens_ne_nil l t ((tokenSet_mem l t).mp ht)

/-!  ## joinSpace facts -/

theorem joinSpace_ne_nil :
    ∀ (L : List (List Char)), L ≠ [] → (∀ t ∈ L, t ≠ []) → joinSpace L ≠ [] := by
  intro L
  match L with
  | [] => intro h _; exact absurd rfl h
  | [t] =>
    intro _ h2
    rw [joinSpace]
    exact h2 t (List.mem_singleton_self t)
  | t :: u :: ts =>
    intro _ _
    show t ++ ' ' :: joinSpace (u :: ts) ≠ []
    simp

theorem joinSpace_length :
    ∀ (L : List (List Char)), L ≠ [] →
      (joinSpace L).length + 1 = (L.map List.length).sum + L.length := by
  intro L
  induction L with
  | nil => intro h; exact absurd rfl h
  | cons t ts ih =>
    intro _
    cases ts with
    | nil => simp [joinSpace]
    | cons u us =>
      have hne : u :: us ≠ ([] : List (List Char)) := by simp
      have := ih hne
      show (t ++ ' ' :: joinSpace (u :: us)).length + 1 = _
      simp only [List.length_append, List.length_cons, List.map_cons, List.sum_cons] at this ⊢
      omega

theorem joinSpace_length_of_perm (A B : List (List Char)) (h : List.Perm A B) :
    (joinSpace A).length = (joinSpace B).length := by
  by_cases hA : A = []
  · subst hA
    rw [List.Perm.nil_eq h]
  · have hB : B ≠ [] := by
      intro hB
      subst hB
      exact hA (List.Perm.eq_nil h)
    have h1 := joinSpace_length A hA
    have h2 := joinSpace_length B hB
    have hsum : (A.map List.length).sum = (B.map List.length).sum :=
      (h.map List.length).sum_eq
    have hlen : A.length = B.length := h.length_eq
    omega

theorem perm_of_nodup_mem_iff {α : Type} [DecidableEq α] (l1 l2 : List α)
    (h1 : l1.Nodup) (h2 : l2.Nodup) (h : ∀ x, x ∈ l1 ↔ x ∈ l2) :
    List.Perm l1 l2 := by
  rw [List.perm_iff_count]
  intro x
  by_cases hx : x ∈ l1
  · rw [List.count_eq_one_of_mem h1 hx, List.count_eq_one_of_mem h2 ((h x).mp hx)]
  · rw [List.count_eq_zero.mpr hx, List.count_eq_zero.mpr (fun hc => hx ((h x).mpr hc))]

/-!  ## Scoring an empty query -/

theorem sortLex_eq_nil_iff (L : List (List Char)) : sortLex L = [] ↔ L = [] := by
  constructor
  · intro h
    have := (sortLex_perm L).length_eq
    rw [h] at this
    exact List.length_eq_zero.mp this.symm
  · intro h
    rw [h]
    rfl

theorem similarity_score_empty_query (x m : String) (hx : hasNonWS x = true) :
    similarity_score "" x m = 0 := by
  have hxc : ∃ c ∈ x.data, isWS c = false := by
    obtain ⟨c, hc, hcw⟩ := List.any_eq_true.mp hx
    exact ⟨c, hc, by simpa using hcw⟩
  have hxne : x.data ≠ [] := by
    obtain ⟨c, hc, _⟩ := hxc
    exact List.ne_nil_of_mem hc
  have hnil : ("" : String).data = [] := rfl
  have hsplit : splitWS (("" : String).data) = [] := rfl
  unfold similarity_score
  split_ifs with h1 h2 h3
  · -- token_set: the empty side has an empty token set, first guard gives 0
    have hta : tokenSet (("" : String).data) = [] := rfl
    simp [token_set_ratioL, hta]
  · -- token_sort: ratio of "" against a non-empty rebuilt string
    unfold token_sort_ratioL
    rw [hsplit]
    have hsort : sortLex ([] : List (List Char)) = [] := rfl
    rw [hsort]
    have hjoin : joinSpace ([] : List (List Char)) = [] := rfl
    rw [hjoin]
    apply ratioL_nil_left
    apply joinSpace_ne_nil
    · rw [Ne, sortLex_eq_nil_iff]
      exact splitWS_ne_nil_of_nonWS x.data hxc
    · intro t ht
      exact splitWS_tokens_ne_nil x.data t ((sortLex_perm _).mem_iff.mp ht)
  · -- partial: the empty needle scores 0 (no equal-length retry, since
    -- the other side is non-empty)
    have hndl : shortNeedle ("" : String).data x.data = 0 := by
      unfold shortNeedle
      rw [if_pos rfl]
    have hlc : ¬(("" : String).data.length = x.data.length ∧
        shortNeedle ("" : String).data x.data ≠ 100) := by
      intro hc
      have h0 : x.data.length = 0 := hc.1.symm.trans (by decide)
      exact hxne (List.length_eq_zero.mp h0)
    unfold partialRatioL
    rw [if_neg (by simp [hxne])]
    rw [if_pos (by simp)]
    rw [if_neg hlc]
    exact hndl
  · -- fallback fuzz.ratio
    rw [hnil]
    exact ratioL_nil_left x.data hxne

/-!  ## Claim C4: empty-after-normalization queries -/

/-- Claim C4 counterexample: a search term that normalizes to the empty
string does not always yield an empty result: with min_similarity = 0
every candidate (scoring 0) passes the filter, so the whole catalog is
returned.  Concretely, the term "-" cleans to "", yet the one-row catalog
comes back in full. -/
theorem claim_C4_counterexample :
    cleanStr "-" = "" ∧
      resultsSpec [⟨"M1", some "BOLT", "BOLT", none⟩]
        ⟨"-", "token_set", 0, 50, false⟩
        [⟨"M1", some "BOLT", "BOLT", some 0⟩] ∧
      ([(⟨"M1", some "BOLT", "BOLT", some 0⟩ : Row)]) ≠ [] :=
  ⟨by decide,
    ⟨[⟨"M1", some "BOLT", "BOLT", some 0⟩], ⟨by decide, by decide⟩, by decide⟩,
    by decide⟩

/-- Claim C4 (amended): with the default case-insensitive cleaning, a
search term that normalizes to the empty string never fails; every
candidate scores 0, so whenever the threshold is positive the result
sequence is empty (with threshold 0 the entire snapshot is returned
instead, truncated to max_results). -/
theorem claim_C4_amended (df : List Row) (q : QuerySpec) (out : List Row)
    (hcs : q.caseSensitive = false)
    (hempty : cleanStr q.searchTerm = "")
    (hmin : 0 < q.minScore)
    (hrows : ∀ r ∈ df, hasNonWS r.cleanName = true)
    (h : resultsSpec df q out) : out = [] := by
  obtain ⟨mid, ⟨hperm, hsort⟩, rfl⟩ := h
  have hq : cleanQuery q = "" := by
    unfold cleanQuery
    rw [hcs]
    simpa using hempty
  have hfil : filterStep (searchStep df q) q.minScore = [] := by
    apply List.filter_eq_nil_iff.mpr
    intro r hr
    rcases List.mem_map.mp hr with ⟨r0, hr0, rfl⟩
    simp only [simPasses]
    rw [hq, similarity_score_empty_query r0.cleanName q.method (hrows r0 hr0)]
    simp [not_le.mpr hmin]
  rw [hfil] at hperm
  rw [List.Perm.eq_nil hperm.symm]
  simp

/-- Claim C4 amended witness: term "-", threshold 50, one-row catalog. -/
theorem claim_C4_amended_witness :
    cleanStr "-" = "" ∧ (0 : ℚ) < 50 ∧ ([] : List Row) = [] :=
  ⟨by decide, by decide,
    claim_C4_amended [⟨"M1", some "BOLT", "BOLT", none⟩]
      ⟨"-", "token_set", 50, 100, false⟩ [] rfl (by decide) (by decide) (by decide)
      ⟨[], ⟨by decide, rfl⟩, by decide⟩⟩

/-!  ## Score bounds for every algorithm -/

theorem token_sort_ratioL_nonneg (a b : List Char) : 0 ≤ token_sort_ratioL a b :=
  ratioL_nonneg _ _

theorem token_sort_ratioL_le_100 (a b : List Char) : token_sort_ratioL a b ≤ 100 :=
  ratioL_le_100 _ _

theorem token_set_ratioL_nonneg (a b : List Char) : 0 ≤ token_set_ratioL a b := by
  unfold token_set_ratioL
  dsimp only
  split
  · norm_num
  · split
    · norm_num
    · exact le_trans (ratioL_nonneg _ _) (le_max_left _ _)

theorem token_set_ratioL_le_100 (a b : List Char) : token_set_ratioL a b ≤ 100 := by
  unfold token_set_ratioL
  dsimp only
  split
  · norm_num
  · split
    · norm_num
    · apply max_le (ratioL_le_100 _ _)
      exact max_le (normSim_le_100 _ _) (normSim_le_100 _ _)

theorem foldl_max_nonneg (s1 : List Char) :
    ∀ (ws : List (List Char)) (acc : ℚ), 0 ≤ acc →
      0 ≤ ws.foldl (fun acc w => max acc (ratioL s1 w)) acc := by
  intro ws
  induction ws with
  | nil => intro acc h; exact h
  | cons w ws ih =>
    intro acc h
    exact ih (max acc (ratioL s1 w)) (le_trans h (le_max_left _ _))

theorem foldl_max_le_100 (s1 : List Char) :
    ∀ (ws : List (List Char)) (acc : ℚ), acc ≤ 100 →
      ws.foldl (fun acc w => max acc (ratioL s1 w)) acc ≤ 100 := by
  intro ws
  induction ws with
  | nil => intro acc h; exact h
  | cons w ws ih =>
    intro acc h
    exact ih (max acc (ratioL s1 w)) (max_le h (ratioL_le_100 _ _))

theorem foldl_max_ge_acc (s1 : List Char) :
    ∀ (ws : List (List Char)) (acc : ℚ),
      acc ≤ ws.foldl (fun acc w => max acc (ratioL s1 w)) acc := by
  intro ws
  induction ws with
  | nil => intro acc; exact le_refl acc
  | cons w ws ih =>
    intro acc
    exact le_trans (le_max_left _ _) (ih (max acc (ratioL s1 w)))

theorem foldl_max_ge_mem (s1 : List Char) :
    ∀ (ws : List (List Char)) (acc : ℚ) (w : List Char), w ∈ ws →
      ratioL s1 w ≤ ws.foldl (fun acc w => max acc (ratioL s1 w)) acc := by
  intro ws
  induction ws with
  | nil => intro acc w h; cases h
  | cons u us ih =>
    intro acc w h
    rcases List.mem_cons.mp h with rfl | h2
    · exact le_trans (le_max_right acc _) (foldl_max_ge_acc s1 us _)
    · exact ih _ w h2

theorem shortNeedle_nonneg (s1 s2 : List Char) : 0 ≤ shortNeedle s1 s2 := by
  unfold shortNeedle
  split
  · norm_num
  · exact foldl_max_nonneg s1 _ 0 (le_refl 0)

theorem shortNeedle_le_100 (s1 s2 : List Char) : shortNeedle s1 s2 ≤ 100 := by
  unfold shortNeedle
  split
  · norm_num
  · exact foldl_max_le_100 s1 _ 0 (by norm_num)

theorem partialRatioL_nonneg (a b : List Char) : 0 ≤ partialRatioL a b := by
  unfold partialRatioL
  split
  · norm_num
  · split
    · split
      · exact le_trans (shortNeedle_nonneg a b) (le_max_left _ _)
      · exact shortNeedle_nonneg a b
    · exact shortNeedle_nonneg b a

theorem partialRatioL_le_100 (a b : List Char) : partialRatioL a b ≤ 100 := by
  unfold partialRatioL
  split
  · norm_num
  · split
    · split
      · exact max_le (shortNeedle_le_100 a b) (shortNeedle_le_100 b a)
      · exact shortNeedle_le_100 a b
    · exact shortNeedle_le_100 b a

/-!  ## Self-comparison scores -/

theorem token_set_ratioL_self (a : List Char) (h : splitWS a ≠ []) :
    token_set_ratioL a a = 100 := by
  have hta : tokenSet a ≠ [] := tokenSet_ne_nil a h
  have hsect : (tokenSet a).filter (fun t => decide (t ∈ tokenSet a)) = tokenSet a :=
    List.filter_eq_self.mpr (fun t ht => decide_eq_true ht)
  have hdab : (tokenSet a).filter (fun t => decide (t ∉ tokenSet a)) = [] :=
    List.filter_eq_nil_iff.mpr (fun t ht => by simp [ht])
  simp [token_set_ratioL, hta, hsect, hdab]

theorem partialRatioL_self (a : List Char) (ha : a ≠ []) : partialRatioL a a = 100 := by
  have hlen : 0 < a.length := List.length_pos.mpr ha
  have hget : ∃ c, a.get? (a.length - 1) = some c ∧ c ∈ a := by
    have hidx : a.length - 1 < a.length := by omega
    exact ⟨a.get ⟨a.length - 1, hidx⟩, List.get?_eq_get hidx, List.get_mem a _ _⟩
  obtain ⟨c, hc, hcm⟩ := hget
  have hch : charHit a (a.get? (0 + a.length - 1)) = true := by
    rw [Nat.zero_add, hc]
    unfold charHit
    exact decide_eq_true hcm
  have hmemfull : a ∈ (List.range (a.length - a.length + 1)).filterMap (fun i =>
      if charHit a (a.get? (i + a.length - 1)) then some ((a.drop i).take a.length)
      else none) := by
    rw [List.mem_filterMap]
    refine ⟨0, ?_, ?_⟩
    · rw [Nat.sub_self]
      exact List.mem_range.mpr (by omega)
    · rw [if_pos hch]
      simp
  have hmem : a ∈ prWindows a a := by
    unfold prWindows
    simp only [List.mem_append]
    exact Or.inl (Or.inr hmemfull)
  have hge : ratioL a a ≤ shortNeedle a a := by
    unfold shortNeedle
    rw [if_neg ha]
    exact foldl_max_ge_mem a _ 0 a hmem
  rw [ratioL_self] at hge
  have hle : shortNeedle a a ≤ 100 := shortNeedle_le_100 a a
  have hsn : shortNeedle a a = 100 := le_antisymm hle hge
  have hng : ¬(a.length = a.length ∧ shortNeedle a a ≠ 100) := fun hc => hc.2 hsn
  unfold partialRatioL
  rw [if_neg (by simp [ha])]
  rw [if_pos (le_refl _)]
  rw [if_neg hng]
  exact hsn

/-!  ## Claim C7: boundedness and the self-score -/

/-- Claim C7 counterexample: the whitespace-only string " " is non-empty,
yet token_set scores it 0 against itself (rapidfuzz returns 0 whenever a
token set is empty, as its fuzzywuzzy-compatibility comment states), so
score(a,a) = 100 fails for non-empty a. -/
theorem claim_C7_counterexample :
    (" " : String) ≠ "" ∧ similarity_score " " " " "token_set" ≠ 100 := by
  constructor
  · decide
  · decide

/-- Claim C7 (amended): every similarity score lies in [0,100] for every
pair of strings and every method; and score(a,a) = 100 holds for every
string a containing at least one non-whitespace character (for
whitespace-only non-empty a the token_set method returns 0 instead). -/
theorem claim_C7_amended :
    (∀ (a b m : String), 0 ≤ similarity_score a b m ∧ similarity_score a b m ≤ 100) ∧
    (∀ (a m : String), hasNonWS a = true → similarity_score a a m = 100) := by
  constructor
  · intro a b m
    unfold similarity_score
    split_ifs
    · exact ⟨token_set_ratioL_nonneg _ _, token_set_ratioL_le_100 _ _⟩
    · exact ⟨token_sort_ratioL_nonneg _ _, token_sort_ratioL_le_100 _ _⟩
    · exact ⟨partialRatioL_nonneg _ _, partialRatioL_le_100 _ _⟩
    · exact ⟨ratioL_nonneg _ _, ratioL_le_100 _ _⟩
  · intro a m ha
    have hxc : ∃ c ∈ a.data, isWS c = false := by
      obtain ⟨c, hc, hcw⟩ := List.any_eq_true.mp ha
      exact ⟨c, hc, by simpa using hcw⟩
    have hane : a.data ≠ [] := by
      obtain ⟨c, hc, _⟩ := hxc
      exact List.ne_nil_of_mem hc
    unfold similarity_score
    split_ifs
    · exact token_set_ratioL_self a.data (splitWS_ne_nil_of_nonWS a.data hxc)
    · exact ratioL_self _
    · exact partialRatioL_self a.data hane
    · exact ratioL_self _

/-- Claim C7 amended witness: both parts instantiated at "AB" with the
partial method. -/
theorem claim_C7_amended_witness :
    hasNonWS "AB" = true ∧ similarity_score "AB" "AB" "partial" = 100 :=
  ⟨by decide, claim_C7_amended.2 "AB" "partial" (by decide)⟩

/-!  ## Symmetry of the token-based scorers -/

theorem filter_inter_perm (a b : List Char) :
    List.Perm ((tokenSet a).filter (fun t => decide (t ∈ tokenSet b)))
      ((tokenSet b).filter (fun t => decide (t ∈ tokenSet a))) := by
  apply perm_of_nodup_mem_iff
  · exact List.Nodup.filter _ (tokenSet_nodup a)
  · exact List.Nodup.filter _ (tokenSet_nodup b)
  · intro x
    simp only [List.mem_filter, decide_eq_true_eq]
    tauto

theorem token_set_ratioL_comm (a b : List Char) :
    token_set_ratioL a b = token_set_ratioL b a := by
  unfold token_set_ratioL
  dsimp only
  have hperm := filter_inter_perm a b
  have hsectlen : (joinSpace ((tokenSet a).filter (fun t => decide (t ∈ tokenSet b)))).length
      = (joinSpace ((tokenSet b).filter (fun t => decide (t ∈ tokenSet a)))).length :=
    joinSpace_length_of_perm _ _ hperm
  have hsectnil : (tokenSet a).filter (fun t => decide (t ∈ tokenSet b)) = [] ↔
      (tokenSet b).filter (fun t => decide (t ∈ tokenSet a)) = [] := by
    constructor
    · intro h
      rw [h] at hperm
      exact List.Perm.eq_nil hperm.symm
    · intro h
      rw [h] at hperm
      exact List.Perm.eq_nil hperm
  by_cases h1 : tokenSet a = [] ∨ tokenSet b = []
  · rw [if_pos h1, if_pos (Or.symm h1)]
  · have h1s : ¬(tokenSet b = [] ∨ tokenSet a = []) := fun hc => h1 (Or.symm hc)
    rw [if_neg h1, if_neg h1s]
    by_cases h2 : (tokenSet a).filter (fun t => decide (t ∈ tokenSet b)) ≠ [] ∧
        ((tokenSet a).filter (fun t => decide (t ∉ tokenSet b)) = [] ∨
          (tokenSet b).filter (fun t => decide (t ∉ tokenSet a)) = [])
    · have hps : (tokenSet b).filter (fun t => decide (t ∈ tokenSet a)) ≠ [] ∧
          ((tokenSet b).filter (fun t => decide (t ∉ tokenSet a)) = [] ∨
            (tokenSet a).filter (fun t => decide (t ∉ tokenSet b)) = []) :=
        ⟨fun hc => h2.1 (hsectnil.mpr hc), Or.symm h2.2⟩
      rw [if_pos h2, if_pos hps]
    · have hns : ¬((tokenSet b).filter (fun t => decide (t ∈ tokenSet a)) ≠ [] ∧
          ((tokenSet b).filter (fun t => decide (t ∉ tokenSet a)) = [] ∨
            (tokenSet a).filter (fun t => decide (t ∉ tokenSet b)) = [])) :=
        fun hc => h2 ⟨fun hn => hc.1 (hsectnil.mp hn), Or.symm hc.2⟩
      rw [if_neg h2, if_neg hns]
      rw [hsectlen, ratioL_comm]
      rw [max_comm (normSim _ _) (normSim _ _)]

/-!  ## Claim C9: symmetry of the four scorers -/

theorem partialRatioL_comm (a b : List Char) : partialRatioL a b = partialRatioL b a := by
  unfold partialRatioL
  by_cases h0 : a = [] ∧ b = []
  · rw [if_pos h0, if_pos ⟨h0.2, h0.1⟩]
  · have h0s : ¬(b = [] ∧ a = []) := fun hc => h0 ⟨hc.2, hc.1⟩
    rw [if_neg h0, if_neg h0s]
    rcases lt_trichotomy a.length b.length with hlt | heq | hgt
    · have hne : ¬(a.length = b.length ∧ shortNeedle a b ≠ 100) :=
        fun hc => absurd hc.1 (by omega)
      rw [if_pos (le_of_lt hlt), if_neg hne, if_neg (by omega : ¬b.length ≤ a.length)]
    · have hle1 : a.length ≤ b.length := le_of_eq heq
      have hle2 : b.length ≤ a.length := le_of_eq heq.symm
      rw [if_pos hle1, if_pos hle2]
      by_cases hab : shortNeedle a b = 100
      · by_cases hba : shortNeedle b a = 100
        · have hna : ¬(a.length = b.length ∧ shortNeedle a b ≠ 100) := fun hc => hc.2 hab
          have hnb : ¬(b.length = a.length ∧ shortNeedle b a ≠ 100) := fun hc => hc.2 hba
          rw [if_neg hna, if_neg hnb, hab, hba]
        · have hna : ¬(a.length = b.length ∧ shortNeedle a b ≠ 100) := fun hc => hc.2 hab
          rw [if_neg hna, if_pos ⟨heq.symm, hba⟩, hab]
          exact (max_eq_right (shortNeedle_le_100 b a)).symm
      · by_cases hba : shortNeedle b a = 100
        · have hnb : ¬(b.length = a.length ∧ shortNeedle b a ≠ 100) := fun hc => hc.2 hba
          rw [if_pos ⟨heq, hab⟩, if_neg hnb, hba]
          exact max_eq_right (shortNeedle_le_100 a b)
        · rw [if_pos ⟨heq, hab⟩, if_pos ⟨heq.symm, hba⟩]
          exact max_comm _ _
    · have hne : ¬(b.length = a.length ∧ shortNeedle b a ≠ 100) :=
        fun hc => absurd hc.1 (by omega)
      rw [if_neg (by omega : ¬a.length ≤ b.length), if_pos (le_of_lt hgt), if_neg hne]

/-- Claim C9 counterexample: fuzz.partial_ratio is NOT asymmetric.  On the
equal-length pair "abab" / "bbaa" the two single-needle passes do score
differently (200/3 with needle "abab", 400/7 with needle "bbaa"), but
partial_ratio_alignment's equal-length retry takes the maximum of both
passes, so the program returns the same 200/3 in either argument order. -/
theorem claim_C9_counterexample :
    shortNeedle "abab".data "bbaa".data ≠ shortNeedle "bbaa".data "abab".data ∧
      similarity_score "abab" "bbaa" "partial" = similarity_score "bbaa" "abab" "partial" := by
  constructor
  · decide
  · decide

/-- Claim C9 (amended): all four algorithms are symmetric — fuzz.ratio
(the "simple" fallback), fuzz.token_sort_ratio, fuzz.token_set_ratio, and
also fuzz.partial_ratio: the shorter string is always the needle, and on
equal-length inputs the equal-length retry scores both directions, so
score(a, b, m) = score(b, a, m) for every method m. -/
theorem claim_C9_amended (a b m : String) :
    similarity_score a b m = similarity_score b a m := by
  unfold similarity_score
  split_ifs
  · exact token_set_ratioL_comm _ _
  · unfold token_sort_ratioL
    exact ratioL_comm _ _
  · exact partialRatioL_comm _ _
  · exact ratioL_comm _ _

/-!  ## Claim C8: the build pipeline -/

theorem filter_map_comm {α β : Type} (f : α → β) (p : β → Bool) (l : List α) :
    (l.map f).filter p = (l.filter (fun x => p (f x))).map f := by
  induction l with
  | nil => rfl
  | cons x xs ih =>
    simp only [List.map_cons, List.filter_cons]
    cases h : p (f x) with
    | true => simp [h, ih]
    | false => simp [h, ih]

theorem buildRows_codes (rows : List RawRow) :
    ((rows.map mkRow).filter (fun r => decide (r.cleanName ≠ ""))).map
        (fun r => r.material) =
      (rows.filter (fun raw => decide (clean_text raw.desc ≠ ""))).map
        (fun raw => raw.material) := by
  rw [filter_map_comm mkRow (fun r => decide (r.cleanName ≠ "")) rows, List.map_map]
  rfl

/-- Claim C8: building the snapshot normalizes every record (every
surviving row is mkRow of a source record and has a non-empty CLEAN_NAME),
leaves no duplicate Material codes, keeps for each code exactly the first
filtered occurrence, and the snapshot record count equals the number of
distinct codes among records with non-empty normalized description. -/
theorem claim_C8 (rows : List RawRow) :
    (∀ r ∈ buildRows rows, r.cleanName ≠ "" ∧ ∃ raw ∈ rows, r = mkRow raw) ∧
    ((buildRows rows).map (fun r => r.material)).Nodup ∧
    (∀ r ∈ buildRows rows,
      ((rows.map mkRow).filter (fun r => decide (r.cleanName ≠ ""))).find?
        (fun y => decide (y.material = r.material)) = some r) ∧
    (buildRows rows).length =
      ((rows.filter (fun raw => decide (clean_text raw.desc ≠ ""))).map
        (fun raw => raw.material)).toFinset.card := by
  have hb : buildRows rows = dropDupAux (fun r => r.material)
      ((rows.map mkRow).filter (fun r => decide (r.cleanName ≠ ""))) [] := rfl
  rw [hb]
  refine ⟨?_, ?_, ?_, ?_⟩
  · intro r hr
    have hr2 := dropDupAux_subset (fun r => r.material) _ [] r hr
    have hr3 := List.mem_filter.mp hr2
    refine ⟨by simpa using hr3.2, ?_⟩
    rcases List.mem_map.mp hr3.1 with ⟨raw, hraw, rfl⟩
    exact ⟨raw, hraw, rfl⟩
  · exact dropDupAux_keys_nodup (fun r : Row => r.material)
      ((rows.map mkRow).filter (fun r => decide (r.cleanName ≠ ""))) []
  · intro r hr
    exact dropDupAux_first (fun r => r.material) _ [] r hr
  · rw [dropDupAux_length]
    rw [buildRows_codes rows]
    simp

/-- Claim C8 witness: a three-record catalog with a duplicated code M1 and
a record whose description is absent (cleaning to ""): only the first M1
survives, and the count equals the single distinct code. -/
theorem claim_C8_witness :
    (mkRow ⟨"M1", some "A"⟩).cleanName ≠ "" ∧
      (buildRows [⟨"M1", some "A"⟩, ⟨"M1", some "B"⟩, ⟨"M2", none⟩]).length =
        (([⟨"M1", some "A"⟩, ⟨"M1", some "B"⟩, (⟨"M2", none⟩ : RawRow)].filter
          (fun raw => decide (clean_text raw.desc ≠ ""))).map
            (fun raw => raw.material)).toFinset.card :=
  ⟨((claim_C8 [⟨"M1", some "A"⟩, ⟨"M1", some "B"⟩, ⟨"M2", none⟩]).1
      (mkRow ⟨"M1", some "A"⟩)
      (by decide)).1,
    (claim_C8 [⟨"M1", some "A"⟩, ⟨"M1", some "B"⟩, ⟨"M2", none⟩]).2.2.2⟩

/-!  ## Character-level facts about the cleaning pipeline -/

theorem char_le_iff_toNat (a b : Char) : a ≤ b ↔ a.toNat ≤ b.toNat := by
  rw [Char.le_def, UInt32.le_def, BitVec.le_def]
  exact Iff.rfl

theorem toUpper_not_lowerAlpha (c : Char) : isLowerAlpha (Char.toUpper c) = false := by
  unfold Char.toUpper
  dsimp only
  split
  · rename_i h
    obtain ⟨h1, h2⟩ := h
    have hv : (Char.toNat c - 32).isValidChar := Or.inl (by omega)
    have hto : (Char.ofNat (Char.toNat c - 32)).toNat = Char.toNat c - 32 := by
      simp [Char.ofNat, hv]
      rfl
    unfold isLowerAlpha
    have hlt : ¬('a' ≤ Char.ofNat (Char.toNat c - 32)) := by
      rw [char_le_iff_toNat, hto]
      have ha : Char.toNat 'a' = 97 := rfl
      omega
    simp [hlt]
  · rename_i h
    unfold isLowerAlpha
    have hsplit : ¬('a' ≤ c) ∨ ¬(c ≤ 'z') := by
      rw [char_le_iff_toNat, char_le_iff_toNat]
      have ha : Char.toNat 'a' = 97 := rfl
      have hz : Char.toNat 'z' = 122 := rfl
      omega
    rcases hsplit with h1 | h1
    · simp [h1]
    · simp [h1]

theorem mem_upperChars (l : List Char) (c : Char) (h : c ∈ upperChars l) :
    isLowerAlpha c = false := by
  rcases List.mem_map.mp h with ⟨c0, _, rfl⟩
  exact toUpper_not_lowerAlpha c0

theorem mem_replacePunct (l : List Char) (c : Char) (h : c ∈ replacePunct l) :
    c = ' ' ∨ (c ∈ l ∧ c ∉ replacedChars) := by
  rcases List.mem_map.mp h with ⟨c0, hc0, rfl⟩
  by_cases hr : c0 ∈ replacedChars
  · rw [if_pos hr]
    exact Or.inl rfl
  · rw [if_neg hr]
    exact Or.inr ⟨hc0, hr⟩

theorem mem_collapseAux :
    ∀ (l : List Char) (prev : Bool) (c : Char), c ∈ collapseAux prev l →
      c = ' ' ∨ (c ∈ l ∧ isWS c = false) := by
  intro l
  induction l with
  | nil => intro prev c h; cases h
  | cons d ds ih =>
    intro prev c h
    rw [collapseAux] at h
    split at h
    · rename_i hws
      split at h
      · rcases ih true c h with h1 | ⟨h2, h3⟩
        · exact Or.inl h1
        · exact Or.inr ⟨List.mem_cons_of_mem d h2, h3⟩
      · rcases List.mem_cons.mp h with rfl | h2
        · exact Or.inl rfl
        · rcases ih true c h2 with h1 | ⟨h3, h4⟩
          · exact Or.inl h1
          · exact Or.inr ⟨List.mem_cons_of_mem d h3, h4⟩
    · rename_i hws
      rcases List.mem_cons.mp h with rfl | h2
      · exact Or.inr ⟨List.mem_cons_self _ _, by simpa using hws⟩
      · rcases ih false c h2 with h1 | ⟨h3, h4⟩
        · exact Or.inl h1
        · exact Or.inr ⟨List.mem_cons_of_mem d h3, h4⟩

theorem mem_stripWS (l : List Char) (c : Char) (h : c ∈ stripWS l) : c ∈ l := by
  unfold stripWS at h
  rw [List.mem_reverse] at h
  have h2 := (List.dropWhile_sublist isWS).subset h
  rw [List.mem_reverse] at h2
  exact (List.dropWhile_sublist isWS).subset h2

/-!  ## Claim C3: the character set of normalized output -/

/-- Claim C3 counterexample: clean_text does not close the output into
{A-Z, 0-9, space}.  The input "." is left as "." — the regex on app.py
line 46 replaces only the six characters – - / , ( ), not every
non-alphanumeric character. -/
theorem claim_C3_counterexample :
    cleanStr "." = "." ∧ matchesUpperAlnumSpace (cleanStr ".") = false := by
  constructor
  · decide
  · decide

/-- Claim C3 (amended): every character of the normalized output is
non-lower-case (upper-casing happened first), is none of the six replaced
punctuation characters – - / , ( ), and any whitespace in the output is
the single plain space (runs were collapsed, ends trimmed).  Characters
outside {A-Z, 0-9, space} other than those six survive unchanged. -/
theorem claim_C3_amended (s : String) (c : Char) (h : c ∈ (cleanStr s).data) :
    isLowerAlpha c = false ∧ c ∉ replacedChars ∧ (isWS c = true → c = ' ') := by
  have h1 : c ∈ cleanChars s.data := h
  unfold cleanChars at h1
  have h2 := mem_stripWS _ c h1
  rcases mem_collapseAux _ false c h2 with h3 | ⟨h4, h5⟩
  · subst h3
    refine ⟨by decide, by decide, fun _ => rfl⟩
  · rcases mem_replacePunct _ c h4 with h6 | ⟨h7, h8⟩
    · subst h6
      refine ⟨by decide, by decide, fun _ => rfl⟩
    · refine ⟨mem_upperChars _ c h7, h8, ?_⟩
      intro hws
      rw [hws] at h5
      cases h5

/-- Claim C3 amended witness at the period character surviving in
clean_text("."). -/
theorem claim_C3_amended_witness :
    ('.' ∈ (cleanStr ".").data) ∧
      (isLowerAlpha '.' = false ∧ '.' ∉ replacedChars ∧ (isWS '.' = true → '.' = ' ')) :=
  ⟨by decide, claim_C3_amended "." '.' (by decide)⟩

